import Mathlib

/-!
Verification of the IRIS/NCSES name-linkage scripts.

This file gives a shallow embedding of the two core programs of the
`ncses-linkage` repository and proves properties of them:

* `NCSES_clean_names.py` — the per-record name normalization pipeline
  (`clean_name`, `clean_integer`, `add_parsed_name_versions`,
  `process_row`, `load_nicknames`, …).  Python strings are modelled as
  `List Char`; Python dicts (the CSV rows and the nickname table) are
  modelled as association lists with first-match lookup and
  overwrite-in-place insertion, which matches dict semantics whenever the
  keys are distinct (as they are for rows produced by `csv.DictReader`).

* `AENC_create_lookup.py` — the nickname-lookup table builder.  The
  pandas `DataFrame` is modelled as a list of records, and every stage of
  the notebook (filters, group counts, rank selection, loop resolution,
  chain collapse, sanity asserts, final lowercasing) as a function on such
  lists.  Conditional probabilities are only ever compared (never added),
  so they are modelled as integer thousandths (`0.3` becomes `300`),
  which preserves every comparison the script performs.

Fallible steps (`assert`) are modelled with `Except`, a failing assert
being an `error` naming the violated check, in which case no artifact is
produced.
-/

namespace NCSES

/-- The empty string is the agreed missing/null marker (`MISSING_VALUE`). -/
def MISSING_VALUE : List Char := []

/-- Whitespace characters recognized by Python `str.strip` and by the
whitespace-stripping performed by `int()`. -/
def isPySpace (c : Char) : Bool :=
  decide (c = ' ') || decide (c = '\t') || decide (c = '\n') || decide (c = '\r') ||
    decide (c = '\x0b') || decide (c = '\x0c')

/-- Per-character model of `unidecode.unidecode_expect_ascii`.  ASCII code
points are passed through unchanged, exactly as in the library; for
non-ASCII characters a sample of the transliteration table is included
(the examples named in the script comments), with every other non-ASCII
character dropped.  Crucially, as in the library, the output consists of
ASCII characters only. -/
def unidecodeChar (c : Char) : List Char :=
  if c.toNat < 128 then [c]
  else if c = 'Ë' then ['E']
  else if c = 'ë' then ['e']
  else if c = 'ñ' then ['n']
  else if c = 'Ñ' then ['N']
  else if c = 'é' then ['e']
  else if c = 'É' then ['E']
  else if c = 'ü' then ['u']
  else []

/-- `string.ascii_lowercase`. -/
def ascii_lowercase : List Char :=
  ['a','b','c','d','e','f','g','h','i','j','k','l','m',
   'n','o','p','q','r','s','t','u','v','w','x','y','z']

/-- `clean_name(raw, remove_spaces=False)`: strip unicode down to ascii,
lowercase, and keep only lowercase ascii letters (plus the space unless
`remove_spaces`). -/
def clean_name (raw : List Char) (remove_spaces : Bool := false) : List Char :=
  let working := raw.flatMap unidecodeChar
  let working := working.map Char.toLower
  let acceptable := if remove_spaces then ascii_lowercase else ascii_lowercase ++ [' ']
  working.filter (fun c => acceptable.contains c)

/-- Decimal digit test, `c ∈ '0'..'9'` (code points 48 to 57). -/
def isDigit (c : Char) : Bool :=
  decide (48 ≤ c.toNat) && decide (c.toNat ≤ 57)

/-- Numeric value of a decimal digit character. -/
def digitVal (c : Char) : Nat := c.toNat - 48

/-- Value of a most-significant-first string of decimal digits. -/
def digitsVal (l : List Char) : Nat :=
  l.foldl (fun a c => a * 10 + digitVal c) 0

/-- The decimal digit character for `d` (callers only pass `d < 10`). -/
def digitChar : Nat → Char
  | 0 => '0' | 1 => '1' | 2 => '2' | 3 => '3' | 4 => '4'
  | 5 => '5' | 6 => '6' | 7 => '7' | 8 => '8' | _ => '9'

/-- Most-significant-first decimal digits of `n`, with fuel to make the
recursion structural. -/
def toDecimalAux : Nat → Nat → List Char
  | 0, _ => []
  | _ + 1, 0 => []
  | fuel + 1, n + 1 => toDecimalAux fuel ((n + 1) / 10) ++ [digitChar ((n + 1) % 10)]

/-- `str(n)` for a natural number. -/
def natToChars (n : Nat) : List Char :=
  if n = 0 then ['0'] else toDecimalAux (n + 1) n

/-- `str(n)` for an integer. -/
def intToChars (n : Int) : List Char :=
  if n < 0 then '-' :: natToChars n.natAbs else natToChars n.natAbs

/-- Python `str.strip()` (also performed by `int()` before parsing). -/
def pyStrip (s : List Char) : List Char :=
  ((s.dropWhile isPySpace).reverse.dropWhile isPySpace).reverse

/-- Model of Python `int(s)` on a string argument: surrounding whitespace
is ignored, an optional single sign is allowed, and the rest must be one
or more decimal digits (leading zeros allowed); any other shape raises
`ValueError`, modelled as `none`. -/
def pyIntOfChars (s : List Char) : Option Int :=
  match pyStrip s with
  | [] => none
  | c :: rest =>
    if c = '+' then
      if !rest.isEmpty && rest.all isDigit then some ((digitsVal rest : Nat) : Int) else none
    else if c = '-' then
      if !rest.isEmpty && rest.all isDigit then some (-((digitsVal rest : Nat) : Int)) else none
    else if (c :: rest).all isDigit then some ((digitsVal (c :: rest) : Nat) : Int)
    else none

/-- `clean_integer(raw_input, minimum, maximum)`.  A `None` argument is a
`TypeError`, an unparseable string a `ValueError`; both are caught and
return the null marker, as does a value outside `range(minimum, maximum+1)`. -/
def clean_integer (raw_input : Option (List Char)) (minimum maximum : Int) : List Char :=
  match raw_input with
  | none => MISSING_VALUE
  | some s =>
    match pyIntOfChars s with
    | none => MISSING_VALUE
    | some numbered =>
      if minimum ≤ numbered ∧ numbered ≤ maximum then intToChars numbered else MISSING_VALUE

/-- The shapes a sign prefix may take in a decimal string form of the
integer `n`: nothing or `+` when `n` is nonnegative, `-` when `n` is
nonpositive. -/
def SignOk (sgn : List Char) (n : Int) : Prop :=
  (sgn = [] ∧ 0 ≤ n) ∨ (sgn = ['+'] ∧ 0 ≤ n) ∨ (sgn = ['-'] ∧ n ≤ 0)

/-- Helper for `splitWords`: split on every whitespace character, keeping
empty pieces. -/
def splitRaw (s : List Char) : List (List Char) :=
  s.foldr
    (fun c acc =>
      if isPySpace c then [] :: acc
      else
        match acc with
        | [] => [[c]]
        | w :: ws => (c :: w) :: ws)
    [[]]

/-- Python `str.split()` with no separator: split on whitespace runs,
producing no empty words. -/
def splitWords (s : List Char) : List (List Char) :=
  (splitRaw s).filter (fun w => !w.isEmpty)

/-- First-match lookup in an association list (Python dict read). -/
def dlookup {α β : Type} [DecidableEq α] (d : List (α × β)) (k : α) : Option β :=
  (d.find? (fun e => decide (e.1 = k))).map (fun e => e.2)

/-- Python dict assignment `d[k] = v`: overwrite in place when the key is
present, append otherwise. -/
def dinsert {α β : Type} [DecidableEq α] (d : List (α × β)) (k : α) (v : β) : List (α × β) :=
  if (d.find? (fun e => decide (e.1 = k))).isSome then
    d.map (fun e => if e.1 = k then (k, v) else e)
  else d ++ [(k, v)]

/-- Python `d.get(k, fallback)`. -/
def dictGet {α β : Type} [DecidableEq α] (d : List (α × β)) (k : α) (fallback : β) : β :=
  (dlookup d k).getD fallback

/-- A CSV row: field name to field value.  `csv.DictReader` yields rows
with pairwise-distinct keys, but none of the definitions below requires
that. -/
def Row : Type := List (String × List Char)

/-- `load_nicknames`: the dict comprehension
`{row["raw_name"]: row["name_group"] for row in reader}`, built row by
row so that a later row with the same `raw_name` overwrites an earlier
one. -/
def load_nicknames (rows : List (List Char × List Char)) : List (List Char × List Char) :=
  rows.foldl (fun d row => dinsert d row.1 row.2) []

/-- The four required input fields. -/
def INPUT_FIELDS : List String := ["name_first_middle", "name_last", "mob", "yob"]

/-- The fixed output schema. -/
def OUTPUT_FIELDS : List String :=
  ["given", "family", "month", "year", "complete", "given_nickname",
   "given_first_word", "given_middle_initial", "given_all_but_first",
   "given_all_but_final", "given_final_initial", "given_final_word"]

/-- `normalize(row)`: keep the non-required fields as they are, then add
cleaned `given`/`family`/`month`/`year`. -/
def normalize (row : Row) : Row :=
  let new_row : Row := row.filter (fun e => !INPUT_FIELDS.contains e.1)
  let new_row := dinsert new_row "given" (clean_name ((dlookup row "name_first_middle").getD []))
  let new_row := dinsert new_row "family" (clean_name ((dlookup row "name_last").getD []))
  let new_row := dinsert new_row "month" (clean_integer (dlookup row "mob") 1 12)
  dinsert new_row "year" (clean_integer (dlookup row "yob") 1902 2010)

/-- `add_parsed_name_versions(r)`: derive first word, final word, joined
middles and initials from the already-normalized `given` field.  The
`IndexError` branch of the source (no words at all) is the first match
arm. -/
def add_parsed_name_versions (r : Row) : Row :=
  let given := splitWords ((dlookup r "given").getD [])
  match given with
  | [] => dinsert r "complete" ((dlookup r "family").getD [])
  | w :: rest =>
    let r := dinsert r "given_first_word" w
    let r :=
      if rest.isEmpty then r
      else
        let r := dinsert r "given_final_word" ((w :: rest).getLastD [])
        let r := dinsert r "given_all_but_first" rest.flatten
        dinsert r "given_all_but_final" ((w :: rest).dropLast.flatten)
    let r :=
      match (dlookup r "given_all_but_first").getD [] with
      | [] => r
      | c :: _ => dinsert r "given_middle_initial" [c]
    let r :=
      match (dlookup r "given_final_word").getD [] with
      | [] => r
      | c :: _ => dinsert r "given_final_initial" [c]
    dinsert r "complete" (((dlookup r "given").getD []) ++ ((dlookup r "family").getD []))

/-- `value.replace(" ", "")`. -/
def removeSpaces (s : List Char) : List Char := s.filter (fun c => c != ' ')

/-- `process_row(i, row, nicknames)` (the progress print is irrelevant):
normalize, parse, add the nickname with fallback to the first word, and
strip spaces from every output-schema field. -/
def process_row (row : Row) (nicknames : List (List Char × List Char)) : Row :=
  let normalized_row := normalize row
  let working_row := add_parsed_name_versions normalized_row
  let very_first := dictGet working_row "given_first_word" MISSING_VALUE
  let working_row := dinsert working_row "given_nickname" (dictGet nicknames very_first very_first)
  working_row.map (fun e => if OUTPUT_FIELDS.contains e.1 then (e.1, removeSpaces e.2) else e)

/-- The value `csv.DictWriter(..., restval=MISSING_VALUE)` writes for
field `fieldname` of `row`: the row value when present, the empty string
otherwise. -/
def emitField (row : Row) (fieldname : String) : List Char :=
  (dlookup row fieldname).getD MISSING_VALUE

/-- Example input row with a one-word given name. -/
def annRow : Row :=
  [("name_first_middle", "Ann".data), ("name_last", "Lee".data),
   ("mob", "2".data), ("yob", "1990".data)]

/-- Example input row with an empty given name (spec scenario 3). -/
def leeRow : Row :=
  [("name_first_middle", "".data), ("name_last", "Lee".data),
   ("mob", "6".data), ("yob", "1995".data)]

/-- Example input row carrying two passthrough fields: one whose name
collides with the output schema (`complete`) and one that does not
(`employer`). -/
def collideRow : Row :=
  [("name_first_middle", "Ann Beth".data), ("name_last", "Lee".data),
   ("mob", "2".data), ("yob", "1990".data),
   ("complete", "KEEP ME".data), ("employer", "ACME  Corp".data)]

end NCSES

namespace AENC

/-- One row of `American_English_Nicknames.csv` after the intake rename:
`NAME`→`raw_name`, `ALIAS`→`name_group`, `CAP`→`cond_prob`.  The
conditional probability is stored in thousandths (the script only ever
compares probabilities, so the order embedding is faithful). -/
structure RawRow where
  raw_name : List Char
  name_group : List Char
  cond_prob : Nat
deriving DecidableEq, Repr

/-- A row after the `group_n` column has been added. -/
structure NickRow where
  raw_name : List Char
  name_group : List Char
  cond_prob : Nat
  group_n : Nat
deriving DecidableEq, Repr

/-- `MIN_COND_PROB = 0.3`, in thousandths. -/
def MIN_COND_PROB : Nat := 300

def MIN_NAME_GROUP_COUNT : Nat := 5

def MIN_NAME_GROUP_LEN : Nat := 3

/-- Lexicographic order on names (pandas compares strings by code point). -/
def nameLe : List Char → List Char → Bool
  | [], _ => true
  | _ :: _, [] => false
  | a :: as, b :: bs => if a = b then nameLe as bs else decide (a < b)

/-- Insert into a sorted list, used to model `sort_values`. -/
def insertLe {α : Type} (le : α → α → Bool) (a : α) : List α → List α
  | [] => [a]
  | b :: l => if le a b then a :: b :: l else b :: insertLe le a l

/-- Insertion sort, used to model `sort_values`. -/
def sortLe {α : Type} (le : α → α → Bool) (l : List α) : List α :=
  l.foldr (insertLe le) []

/-- Order for `sort_values(["name_group", "raw_name"])`. -/
def rowLe (x y : RawRow) : Bool :=
  if x.name_group = y.name_group then nameLe x.raw_name y.raw_name
  else nameLe x.name_group y.name_group

/-- Order for `sort_values(["raw_name", "name_group"])` on the final pairs. -/
def pairLe (p q : List Char × List Char) : Bool :=
  if p.1 = q.1 then nameLe p.2 q.2 else nameLe p.1 q.1

/-- In[2]: rename columns, select them, sort by (`name_group`, `raw_name`). -/
def intake (raw_df : List RawRow) : List RawRow :=
  sortLe rowLe raw_df

/-- In[3]: drop rows whose `raw_name` contains a space and remove spaces
from every `name_group`. -/
def dropMultiWordNames (df : List RawRow) : List RawRow :=
  (df.filter (fun r => !r.raw_name.contains ' ')).map
    (fun r => { r with name_group := r.name_group.filter (fun c => c != ' ') })

/-- In[4]: drop rows whose `name_group` is shorter than `MIN_NAME_GROUP_LEN`. -/
def dropShortGroups (df : List RawRow) : List RawRow :=
  df.filter (fun r => !decide (r.name_group.length < MIN_NAME_GROUP_LEN))

/-- In[5], first half: `groupby("name_group").transform("count")` adds the
`group_n` column. -/
def withGroupN (df : List RawRow) : List NickRow :=
  df.map (fun r =>
    ⟨r.raw_name, r.name_group, r.cond_prob,
      df.countP (fun s => decide (s.name_group = r.name_group))⟩)

/-- In[5], second half: keep rows with `group_n >= MIN_NAME_GROUP_COUNT`. -/
def dropRareGroups (df : List NickRow) : List NickRow :=
  df.filter (fun r => decide (MIN_NAME_GROUP_COUNT ≤ r.group_n))

/-- In[6]: keep rows with `cond_prob >= MIN_COND_PROB`. -/
def dropImprobable (df : List NickRow) : List NickRow :=
  df.filter (fun r => decide (MIN_COND_PROB ≤ r.cond_prob))

/-- In[7]: `rank(ascending=False) == 1` within each `raw_name` group.
With the default `average` rank method a row has rank exactly 1 iff its
`cond_prob` is strictly greater than that of every other row sharing its
`raw_name` (a tie at the top yields rank 1.5 for both rows, so both are
dropped). -/
def bestLinks (df : List NickRow) : List NickRow :=
  (df.enum.filter (fun p =>
      df.enum.all (fun q =>
        q.1 == p.1 || !(q.2.raw_name == p.2.raw_name) ||
          decide (q.2.cond_prob < p.2.cond_prob)))).map (fun p => p.2)

/-- In[8]: the self-merge on (`raw_name`,`name_group`) = (`name_group`,`raw_name`):
all pairs of rows `(x, y)` with `x.raw_name = y.name_group` and
`x.name_group = y.raw_name`. -/
def loopsOf (df : List NickRow) : List (NickRow × NickRow) :=
  df.flatMap (fun x =>
    (df.filter (fun y => x.raw_name == y.name_group && x.name_group == y.raw_name)).map
      (fun y => (x, y)))

/-- In[8]: `loops[loops["group_n_y"] >= loops["group_n_x"]]`. -/
def loop_priority (df : List NickRow) : List (NickRow × NickRow) :=
  (loopsOf df).filter (fun p => decide (p.1.group_n ≤ p.2.group_n))

/-- In[8]: `dict(loop_priority[["raw_name_y", "name_group_y"]] ...)`. -/
def loop_resolver (df : List NickRow) : List (List Char × List Char) :=
  (loop_priority df).map (fun p => (p.2.raw_name, p.2.name_group))

/-- Lookup in a dict built with `dict(pairs)`: a later pair with the same
key overwrites an earlier one, hence the search from the right. -/
def dictLookup (d : List (List Char × List Char)) (k : List Char) : Option (List Char) :=
  (d.reverse.find? (fun e => e.1 == k)).map (fun e => e.2)

/-- In[8]: `df["name_group"].replace(loop_resolver)`. -/
def resolveLoops (df : List NickRow) : List NickRow :=
  df.map (fun r =>
    { r with name_group := (dictLookup (loop_resolver df) r.name_group).getD r.name_group })

/-- In[9], first half: drop rows where `raw_name == name_group`. -/
def removeSelfMaps (df : List NickRow) : List NickRow :=
  df.filter (fun r => !(r.raw_name == r.name_group))

/-- In[9]: the self-merge on `name_group` = `raw_name`: all pairs of rows
`(x, y)` with `x.name_group = y.raw_name`. -/
def chainsOf (df : List NickRow) : List (NickRow × NickRow) :=
  df.flatMap (fun x =>
    (df.filter (fun y => x.name_group == y.raw_name)).map (fun y => (x, y)))

/-- In[9]: `dict(chains[["raw_name_x", "name_group_y"]] ...)`. -/
def chain_resolver (df : List NickRow) : List (List Char × List Char) :=
  (chainsOf df).map (fun p => (p.1.raw_name, p.2.name_group))

/-- In[9]: `df["name_group"] = df["raw_name"].map(chain_resolver).fillna(df["name_group"])`. -/
def chainPass (df : List NickRow) : List NickRow :=
  df.map (fun r =>
    { r with name_group := (dictLookup (chain_resolver df) r.raw_name).getD r.name_group })

/-- In[9]: `for _ in range(10)`, breaking as soon as no chains remain. -/
def collapseChains : Nat → List NickRow → List NickRow
  | 0, df => df
  | n + 1, df => if chainsOf df = [] then df else collapseChains n (chainPass df)

/-- The whole In[9] cell: self-map removal first, then at most ten chain
collapse passes. -/
def collapseStage (df : List NickRow) : List NickRow :=
  collapseChains 10 (removeSelfMaps df)

/-- `str.lower()` of the final `.apply(lambda x: x.str.lower())`. -/
def lowerName (s : List Char) : List Char := s.map Char.toLower

/-- In[11]: lowercase both columns and sort by (`raw_name`, `name_group`). -/
def finalPairs (df : List NickRow) : List (List Char × List Char) :=
  sortLe pairLe (df.map (fun r => (lowerName r.raw_name, lowerName r.name_group)))

/-- In[10] and In[11]: run the sanity-check asserts in order; a failing
assert halts the build (no artifact), a passing run publishes the
lowercased sorted pairs. -/
def sanityChecksAndPublish (df : List NickRow) : Except String (List (List Char × List Char)) :=
  if df.any (fun r => r.raw_name.contains ' ') then .error "raw_name contains a space"
  else if df.any (fun r => r.name_group.contains ' ') then .error "name_group contains a space"
  else if df.any (fun r => decide (r.cond_prob < MIN_COND_PROB)) then
    .error "cond_prob below minimum"
  else if df.any (fun r => decide (r.group_n < MIN_NAME_GROUP_COUNT)) then
    .error "group_n below minimum"
  else if df.any (fun r => decide (r.name_group.length < MIN_NAME_GROUP_LEN)) then
    .error "name_group below minimum length"
  else if !(chainsOf df).isEmpty then .error "chains remain"
  else if !(loopsOf df).isEmpty then .error "loops remain"
  else .ok (finalPairs df)

/-- The whole script: every stage in notebook order, ending with the
sanity checks and the published artifact. -/
def buildLookup (raw_df : List RawRow) : Except String (List (List Char × List Char)) :=
  sanityChecksAndPublish (collapseStage (resolveLoops (bestLinks (dropImprobable
    (dropRareGroups (withGroupN (dropShortGroups (dropMultiWordNames (intake raw_df)))))))))

/-- First half of the spec's acyclicity postcondition for the published
artifact: no `name_group` value is also a `raw_name` key. -/
def NoChainedKeys (t : List (List Char × List Char)) : Prop :=
  ∀ p ∈ t, ∀ q ∈ t, q.1 ≠ p.2

/-- Second half: there is no pair of names mapped to each other. -/
def NoTwoCycles (t : List (List Char × List Char)) : Prop :=
  ∀ p ∈ t, (p.2, p.1) ∉ t

/-- Shorthand for building a corpus row. -/
def mkRaw (a b : String) (c : Nat) : RawRow := ⟨a.data, b.data, c⟩

/-- A ten-row corpus whose names are not case-normalized: the group
`"PPP"` is fed by five raw names including `"j"`, and the group `"mmm"`
by five raw names including `"Ppp"`.  Every filter passes and the
case-sensitive sanity checks see no chain (`"PPP" ≠ "Ppp"`), yet after
the final lowercasing the published artifact contains both
`("j", "ppp")` and `("ppp", "mmm")`. -/
def corpusMixedCase : List RawRow :=
  [mkRaw "j" "PPP" 900, mkRaw "u" "PPP" 900, mkRaw "v" "PPP" 900,
   mkRaw "w" "PPP" 900, mkRaw "x" "PPP" 900,
   mkRaw "Ppp" "mmm" 900, mkRaw "a" "mmm" 900, mkRaw "b" "mmm" 900,
   mkRaw "c" "mmm" 900, mkRaw "d" "mmm" 900]

/-- The artifact the builder publishes for `corpusMixedCase`. -/
def mixedCaseTable : List (List Char × List Char) :=
  [("a".data, "mmm".data), ("b".data, "mmm".data), ("c".data, "mmm".data),
   ("d".data, "mmm".data), ("j".data, "ppp".data), ("ppp".data, "mmm".data),
   ("u".data, "ppp".data), ("v".data, "ppp".data), ("w".data, "ppp".data),
   ("x".data, "ppp".data)]

/-- The all-lowercase variant of a well-behaved ten-row corpus: same
shape as `corpusMixedCase` but case-normalized and with no name acting as
both a raw name and a group, so every stage passes and the published
artifact genuinely satisfies the acyclicity postcondition. -/
def corpusLowerCase : List RawRow :=
  [mkRaw "j" "ppp" 900, mkRaw "u" "ppp" 900, mkRaw "v" "ppp" 900,
   mkRaw "w" "ppp" 900, mkRaw "x" "ppp" 900,
   mkRaw "e" "mmm" 900, mkRaw "f" "mmm" 900, mkRaw "g" "mmm" 900,
   mkRaw "h" "mmm" 900, mkRaw "i" "mmm" 900]

/-- The artifact the builder publishes for `corpusLowerCase`. -/
def lowerCaseTable : List (List Char × List Char) :=
  [("e".data, "mmm".data), ("f".data, "mmm".data), ("g".data, "mmm".data),
   ("h".data, "mmm".data), ("i".data, "mmm".data), ("j".data, "ppp".data),
   ("u".data, "ppp".data), ("v".data, "ppp".data), ("w".data, "ppp".data),
   ("x".data, "ppp".data)]

/-- Shorthand for building a post-filter row. -/
def mkNick (a b : String) (c n : Nat) : NickRow := ⟨a.data, b.data, c, n⟩

/-- The table state of the worked loop example: `CHRIS → CHRISTOPHER`
with probability 0.9 and target-group support 20, and
`CHRISTOPHER → CHRIS` with probability 0.2 and target-group support 3. -/
def chrisDf : List NickRow :=
  [mkNick "chris" "christopher" 900 20, mkNick "christopher" "chris" 200 3]

/-- A four-cycle of nickname edges that survives to the In[9] cell: chain
collapse turns it into two 2-cycles and then into four self-mappings,
which keep matching themselves in the chain merge, so the ten passes
never converge. -/
def fourCycleDf : List NickRow :=
  [mkNick "aaa" "bbb" 900 5, mkNick "bbb" "ccc" 900 5,
   mkNick "ccc" "ddd" 900 5, mkNick "ddd" "aaa" 900 5]

end AENC

/-! ## Association-list (Python dict) lemmas -/

namespace NCSES

theorem dlookup_nil {α β : Type} [DecidableEq α] (k : α) :
    dlookup ([] : List (α × β)) k = none := rfl

theorem dlookup_cons {α β : Type} [DecidableEq α] (e : α × β) (d : List (α × β)) (k : α) :
    dlookup (e :: d) k = if e.1 = k then some e.2 else dlookup d k := by
  simp only [dlookup, List.find?_cons]
  by_cases h : e.1 = k <;> simp [h]

theorem dlookup_isSome_find? {α β : Type} [DecidableEq α] (d : List (α × β)) (k : α) :
    (dlookup d k).isSome = (d.find? (fun e => decide (e.1 = k))).isSome := by
  unfold dlookup
  cases d.find? (fun e => decide (e.1 = k)) <;> rfl

theorem dlookup_map_overwrite {α β : Type} [DecidableEq α]
    (d : List (α × β)) (k : α) (v : β) :
    dlookup (d.map (fun e => if e.1 = k then (k, v) else e)) k
      = if (dlookup d k).isSome then some v else none := by
  induction d with
  | nil => simp [dlookup]
  | cons e d ih =>
    by_cases h : e.1 = k
    · simp [dlookup_cons, h]
    · simp [dlookup_cons, h, ih]

theorem dlookup_map_overwrite_other {α β : Type} [DecidableEq α]
    (d : List (α × β)) (k k' : α) (v : β) (hne : k' ≠ k) :
    dlookup (d.map (fun e => if e.1 = k then (k, v) else e)) k' = dlookup d k' := by
  induction d with
  | nil => rfl
  | cons e d ih =>
    by_cases h : e.1 = k
    · have hk : ¬ (k = k') := fun hc => hne hc.symm
      simp [dlookup_cons, h, hk, ih]
    · simp [dlookup_cons, h, ih]

theorem find?_singleton_pos {α β : Type} [DecidableEq α] (k : α) (v : β) :
    List.find? (fun e => decide (e.1 = k)) [(k, v)] = some (k, v) :=
  List.find?_cons_of_pos _ (by simp)

theorem find?_singleton_neg {α β : Type} [DecidableEq α] (k k' : α) (v : β) (hne : k' ≠ k) :
    List.find? (fun e => decide (e.1 = k')) [(k, v)] = none :=
  List.find?_cons_of_neg _ (fun hp => hne (of_decide_eq_true hp).symm)

theorem dlookup_dinsert_self {α β : Type} [DecidableEq α]
    (d : List (α × β)) (k : α) (v : β) :
    dlookup (dinsert d k v) k = some v := by
  unfold dinsert
  split
  · next h =>
    rw [dlookup_map_overwrite, if_pos]
    rw [dlookup_isSome_find?]
    exact h
  · next h =>
    have hd : d.find? (fun e => decide (e.1 = k)) = none := by
      cases hx : d.find? (fun e => decide (e.1 = k)) with
      | none => rfl
      | some e => exact absurd (by simp [hx]) h
    simp [dlookup, List.find?_append, hd, find?_singleton_pos, Option.or]

theorem dlookup_dinsert_ne {α β : Type} [DecidableEq α]
    (d : List (α × β)) (k k' : α) (v : β) (hne : k' ≠ k) :
    dlookup (dinsert d k v) k' = dlookup d k' := by
  unfold dinsert
  split
  · exact dlookup_map_overwrite_other d k k' v hne
  · cases hx : d.find? (fun e => decide (e.1 = k')) <;>
      simp [dlookup, List.find?_append, hx, find?_singleton_neg k k' v hne, Option.or]

theorem dlookup_filter_key_pos {α β : Type} [DecidableEq α]
    (p : α → Bool) (d : List (α × β)) (k : α) (h : p k = true) :
    dlookup (d.filter (fun e => p e.1)) k = dlookup d k := by
  induction d with
  | nil => rfl
  | cons e d ih =>
    by_cases hk : e.1 = k
    · subst hk; simp [List.filter_cons, h, dlookup_cons]
    · cases hp : p e.1 <;> simp [List.filter_cons, hp, dlookup_cons, hk, ih]

theorem dlookup_filter_key_none {α β : Type} [DecidableEq α]
    (p : α → Bool) (d : List (α × β)) (k : α) (h : p k = false) :
    dlookup (d.filter (fun e => p e.1)) k = none := by
  induction d with
  | nil => rfl
  | cons e d ih =>
    by_cases hk : e.1 = k
    · subst hk; simp [List.filter_cons, h, ih]
    · cases hp : p e.1 <;> simp [List.filter_cons, hp, dlookup_cons, hk, ih]

theorem dlookup_mapval {α β : Type} [DecidableEq α]
    (q : α → Bool) (f : β → β) (d : List (α × β)) (k : α) :
    dlookup (d.map (fun e => if q e.1 then (e.1, f e.2) else e)) k
      = (dlookup d k).map (fun v => if q k then f v else v) := by
  induction d with
  | nil => rfl
  | cons e d ih =>
    by_cases hk : e.1 = k
    · subst hk; cases hq : q e.1 <;> simp [dlookup_cons, hq]
    · cases hq : q e.1 <;> simp [dlookup_cons, hk, hq, ih]

theorem foldl_dinsert_lookup {α β : Type} [DecidableEq α]
    (rows : List (α × β)) (d : List (α × β)) (k : α) :
    dlookup (rows.foldl (fun d row => dinsert d row.1 row.2) d) k
      = ((rows.reverse.find? (fun e => decide (e.1 = k))).map (fun e => e.2)).or
          (dlookup d k) := by
  induction rows generalizing d with
  | nil => simp [Option.or]
  | cons r rs ih =>
    rw [List.foldl_cons, ih, List.reverse_cons, List.find?_append]
    cases hr : rs.reverse.find? (fun e => decide (e.1 = k)) with
    | some e => simp [Option.or]
    | none =>
      by_cases hk : r.1 = k
      · subst hk
        simp [find?_singleton_pos, dlookup_dinsert_self, Option.or]
      · simp [find?_singleton_neg r.1 k r.2 (fun hc : k = r.1 => hk hc.symm),
          dlookup_dinsert_ne d r.1 k r.2 (fun hc : k = r.1 => hk hc.symm), Option.or]

/-- **C10.** If the nickname lookup CSV contains multiple rows with the
same `raw_name`, `load_nicknames` neither fails nor deduplicates
explicitly: the returned table maps each `raw_name` to the `name_group`
of the *last* row with that `raw_name` in file order (later rows silently
overwrite earlier ones). -/
theorem load_nicknames_keeps_last_row (rows : List (List Char × List Char)) (k : List Char) :
    dlookup (load_nicknames rows) k
      = (rows.reverse.find? (fun e => decide (e.1 = k))).map (fun e => e.2) := by
  rw [load_nicknames, foldl_dinsert_lookup, dlookup_nil]
  cases rows.reverse.find? (fun e => decide (e.1 = k)) <;> simp [Option.or]

end NCSES

/-! ## Integer-cleaning (`clean_integer`) lemmas -/

namespace NCSES

theorem toNat_bounds_of_isDigit {c : Char} (h : isDigit c = true) :
    48 ≤ c.toNat ∧ c.toNat ≤ 57 := by
  unfold isDigit at h
  rcases Bool.and_eq_true .. |>.mp h with ⟨h1, h2⟩
  exact ⟨of_decide_eq_true h1, of_decide_eq_true h2⟩

theorem isPySpace_of_isDigit {c : Char} (h : isDigit c = true) :
    isPySpace c = false := by
  obtain ⟨h1, h2⟩ := toNat_bounds_of_isDigit h
  unfold isPySpace
  simp only [Bool.or_eq_false_iff, decide_eq_false_iff_not]
  refine ⟨⟨⟨⟨⟨?_, ?_⟩, ?_⟩, ?_⟩, ?_⟩, ?_⟩ <;>
    (intro hc; subst hc; exact absurd h1 (by decide))

theorem digitVal_digitChar {m : Nat} (h : m < 10) :
    digitVal (digitChar m) = m := by
  interval_cases m <;> rfl

theorem isDigit_digitChar {m : Nat} (h : m < 10) :
    isDigit (digitChar m) = true := by
  interval_cases m <;> rfl

theorem toDecimalAux_all_digits (fuel n : Nat) :
    ∀ c ∈ toDecimalAux fuel n, isDigit c = true := by
  induction fuel generalizing n with
  | zero => intro c hc; simp [toDecimalAux] at hc
  | succ fuel ih =>
    cases n with
    | zero => intro c hc; simp [toDecimalAux] at hc
    | succ n =>
      intro c hc
      rw [toDecimalAux] at hc
      rcases List.mem_append.mp hc with h | h
      · exact ih _ c h
      · rcases List.mem_singleton.mp h with rfl
        exact isDigit_digitChar (Nat.mod_lt _ (by omega))

theorem natToChars_all_digits (n : Nat) :
    ∀ c ∈ natToChars n, isDigit c = true := by
  unfold natToChars
  split
  · intro c hc; rcases List.mem_singleton.mp hc with rfl; rfl
  · exact toDecimalAux_all_digits _ _

theorem natToChars_ne_nil (n : Nat) : natToChars n ≠ [] := by
  unfold natToChars
  split
  · simp
  · next h =>
    cases n with
    | zero => exact absurd rfl h
    | succ n => rw [toDecimalAux]; simp

theorem digitsVal_append_one (l : List Char) (c : Char) :
    digitsVal (l ++ [c]) = 10 * digitsVal l + digitVal c := by
  unfold digitsVal
  rw [List.foldl_append]
  simp [Nat.mul_comm]

theorem digitsVal_toDecimalAux (fuel n : Nat) (h : n < 10 ^ fuel) :
    digitsVal (toDecimalAux fuel n) = n := by
  induction fuel generalizing n with
  | zero =>
    have : n = 0 := by simpa using h
    subst this; rfl
  | succ fuel ih =>
    cases n with
    | zero => rfl
    | succ n =>
      rw [toDecimalAux, digitsVal_append_one,
        digitVal_digitChar (Nat.mod_lt _ (by omega)), ih _ ?_]
      · exact Nat.mul_div_cancel_left' (Nat.dvd_refl 10) ▸ Nat.div_add_mod (n + 1) 10
      · have h10 : (0:Nat) < 10 := by omega
        rw [Nat.div_lt_iff_lt_mul h10]
        calc n + 1 < 10 ^ (fuel + 1) := h
        _ = 10 ^ fuel * 10 := by rw [Nat.pow_succ]

theorem digitsVal_natToChars (n : Nat) : digitsVal (natToChars n) = n := by
  unfold natToChars
  split
  · next h => subst h; rfl
  · exact digitsVal_toDecimalAux _ _
      (lt_of_lt_of_le (Nat.lt_pow_self (by omega) n) (Nat.pow_le_pow_right (by omega) (by omega)))

theorem foldl_digits_zeros (zs : List Char) (h : ∀ c ∈ zs, c = '0') :
    List.foldl (fun a c => a * 10 + digitVal c) 0 zs = 0 := by
  induction zs with
  | nil => rfl
  | cons c zs ih =>
    have hc : c = '0' := h c (List.mem_cons_self c zs)
    subst hc
    simpa using ih (fun c hc => h c (List.mem_cons_of_mem _ hc))

theorem digitsVal_zeros_append (zs l : List Char) (h : ∀ c ∈ zs, c = '0') :
    digitsVal (zs ++ l) = digitsVal l := by
  unfold digitsVal
  rw [List.foldl_append, foldl_digits_zeros zs h]


theorem dropWhile_append_spaces (ws l : List Char) (h : ∀ c ∈ ws, isPySpace c = true) :
    (ws ++ l).dropWhile isPySpace = l.dropWhile isPySpace := by
  induction ws with
  | nil => rfl
  | cons c ws ih =>
    rw [List.cons_append, List.dropWhile_cons, h c (List.mem_cons_self c ws)]
    exact ih (fun c hc => h c (List.mem_cons_of_mem _ hc))

theorem dropWhile_nonspace_head (c : Char) (l : List Char) (h : isPySpace c = false) :
    (c :: l).dropWhile isPySpace = c :: l := by
  rw [List.dropWhile_cons, h]
  simp

theorem pyStrip_of_form (mid ws1 ws2 : List Char)
    (h1 : ∀ c ∈ ws1, isPySpace c = true) (h2 : ∀ c ∈ ws2, isPySpace c = true)
    (hm : ∀ c ∈ mid, isPySpace c = false) (hne : mid ≠ []) :
    pyStrip (ws1 ++ mid ++ ws2) = mid := by
  unfold pyStrip
  have e1 : (ws1 ++ mid ++ ws2).dropWhile isPySpace = mid ++ ws2 := by
    rw [List.append_assoc, dropWhile_append_spaces _ _ h1]
    cases mid with
    | nil => exact absurd rfl hne
    | cons c m =>
      rw [List.cons_append]
      exact dropWhile_nonspace_head c (m ++ ws2) (hm c (List.mem_cons_self c m))
  rw [e1, List.reverse_append]
  rw [dropWhile_append_spaces _ _ (fun c hc => h2 c (List.mem_reverse.mp hc))]
  cases hmr : mid.reverse with
  | nil => exact absurd (List.reverse_eq_nil_iff.mp hmr) hne
  | cons c m =>
    rw [dropWhile_nonspace_head c m
      (hm c (List.mem_reverse.mp (hmr ▸ List.mem_cons_self c m)))]
    rw [← hmr, List.reverse_reverse]

theorem isDigit_zero_char {c : Char} (h : c = '0') : isDigit c = true := by
  subst h; rfl

theorem plus_not_digit {c : Char} (h : isDigit c = true) : ¬ c = '+' := by
  intro hc; subst hc; exact absurd (toNat_bounds_of_isDigit h).1 (by decide)

theorem minus_not_digit {c : Char} (h : isDigit c = true) : ¬ c = '-' := by
  intro hc; subst hc; exact absurd (toNat_bounds_of_isDigit h).1 (by decide)

theorem pyIntOfChars_strip_nil (s : List Char) (h : pyStrip s = []) :
    pyIntOfChars s = none := by
  unfold pyIntOfChars; rw [h]

theorem pyIntOfChars_strip_plus (s rest : List Char) (h : pyStrip s = '+' :: rest) :
    pyIntOfChars s
      = if !rest.isEmpty && rest.all isDigit then some ((digitsVal rest : Nat) : Int)
        else none := by
  unfold pyIntOfChars; rw [h]; simp

theorem pyIntOfChars_strip_minus (s rest : List Char) (h : pyStrip s = '-' :: rest) :
    pyIntOfChars s
      = if !rest.isEmpty && rest.all isDigit then some (-((digitsVal rest : Nat) : Int))
        else none := by
  unfold pyIntOfChars; rw [h]; simp

theorem pyIntOfChars_strip_other (s rest : List Char) (c : Char)
    (h : pyStrip s = c :: rest) (hp : ¬ c = '+') (hm : ¬ c = '-') :
    pyIntOfChars s
      = if (c :: rest).all isDigit then some ((digitsVal (c :: rest) : Nat) : Int)
        else none := by
  unfold pyIntOfChars; rw [h]
  simp [hp, hm]

theorem pyInt_of_form (n : Int) (sgn zs ws1 ws2 : List Char)
    (h1 : ∀ c ∈ ws1, isPySpace c = true) (h2 : ∀ c ∈ ws2, isPySpace c = true)
    (hz : ∀ c ∈ zs, c = '0') (hs : SignOk sgn n) :
    pyIntOfChars (ws1 ++ (sgn ++ (zs ++ natToChars n.natAbs)) ++ ws2) = some n := by
  set D := zs ++ natToChars n.natAbs with hDdef
  have hDdig : ∀ c ∈ D, isDigit c = true := by
    intro c hc
    rcases List.mem_append.mp hc with h | h
    · exact isDigit_zero_char (hz c h)
    · exact natToChars_all_digits _ c h
  have hDne : D ≠ [] := by
    intro hD
    exact natToChars_ne_nil n.natAbs (List.append_eq_nil.mp hD).2
  have hDval : (digitsVal D : Int) = n.natAbs := by
    rw [hDdef, digitsVal_zeros_append _ _ hz, digitsVal_natToChars]
  obtain ⟨d, ds, hD⟩ := List.exists_cons_of_ne_nil hDne
  have hd : isDigit d = true := hDdig d (hD ▸ List.mem_cons_self d ds)
  have hds : ds.all isDigit = true :=
    List.all_eq_true.mpr (fun c hc => hDdig c (hD ▸ List.mem_cons_of_mem d hc))
  have hDall : D.all isDigit = true :=
    List.all_eq_true.mpr (fun c hc => hDdig c hc)
  have hDnotEmpty : D.isEmpty = false := by rw [hD]; rfl
  rcases hs with ⟨rfl, hn⟩ | ⟨rfl, hn⟩ | ⟨rfl, hn⟩
  · -- no sign: the stripped string is D itself, whose head is a digit
    have hm : ∀ c ∈ ([] : List Char) ++ D, isPySpace c = false := by
      intro c hc; exact isPySpace_of_isDigit (hDdig c (by simpa using hc))
    have hstrip : pyStrip (ws1 ++ ([] ++ D) ++ ws2) = d :: ds := by
      rw [pyStrip_of_form _ _ _ h1 h2 hm (by simpa using hDne), List.nil_append, hD]
    rw [pyIntOfChars_strip_other _ _ _ hstrip (plus_not_digit hd) (minus_not_digit hd),
      if_pos (by simpa [List.all_eq_true, hd] using
        fun c hc => hDdig c (hD ▸ List.mem_cons_of_mem d hc)),
      ← hD, hDval, Int.natAbs_of_nonneg hn]
  · -- plus sign
    have hm : ∀ c ∈ ['+'] ++ D, isPySpace c = false := by
      intro c hc
      rcases List.mem_cons.mp (by simpa using hc) with rfl | hc
      · rfl
      · exact isPySpace_of_isDigit (hDdig c hc)
    have hstrip : pyStrip (ws1 ++ (['+'] ++ D) ++ ws2) = '+' :: D := by
      rw [pyStrip_of_form _ _ _ h1 h2 hm (by simp)]
      rfl
    rw [pyIntOfChars_strip_plus _ _ hstrip,
      if_pos (by rw [hDnotEmpty, hDall]; rfl), hDval, Int.natAbs_of_nonneg hn]
  · -- minus sign
    have hm : ∀ c ∈ ['-'] ++ D, isPySpace c = false := by
      intro c hc
      rcases List.mem_cons.mp (by simpa using hc) with rfl | hc
      · rfl
      · exact isPySpace_of_isDigit (hDdig c hc)
    have hstrip : pyStrip (ws1 ++ (['-'] ++ D) ++ ws2) = '-' :: D := by
      rw [pyStrip_of_form _ _ _ h1 h2 hm (by simp)]
      rfl
    rw [pyIntOfChars_strip_minus _ _ hstrip,
      if_pos (by rw [hDnotEmpty, hDall]; rfl), hDval]
    congr 1
    omega

theorem clean_integer_some_parse (s : List Char) (n minimum maximum : Int)
    (h : pyIntOfChars s = some n) :
    clean_integer (some s) minimum maximum
      = if minimum ≤ n ∧ n ≤ maximum then intToChars n else MISSING_VALUE := by
  show (match pyIntOfChars s with
    | none => MISSING_VALUE
    | some numbered =>
      if minimum ≤ numbered ∧ numbered ≤ maximum then intToChars numbered
      else MISSING_VALUE) = _
  rw [h]

theorem clean_integer_some_fail (s : List Char) (minimum maximum : Int)
    (h : pyIntOfChars s = none) :
    clean_integer (some s) minimum maximum = MISSING_VALUE := by
  show (match pyIntOfChars s with
    | none => MISSING_VALUE
    | some numbered =>
      if minimum ≤ numbered ∧ numbered ≤ maximum then intToChars numbered
      else MISSING_VALUE) = _
  rw [h]

/-- **C5.** `clean_integer(raw, minimum, maximum)` never raises: for every
integer `n` with `minimum ≤ n ≤ maximum` it returns `str(n)` when given
any base-10 string form of `n` (optional sign, leading zeros, surrounding
whitespace), and it returns the empty string for every other input:
`None`, anything that fails integer parsing (empty, whitespace-only,
non-numeric), and any parsed integer outside `[minimum, maximum]`. -/
theorem clean_integer_range_and_null (minimum maximum : Int) :
    (∀ (n : Int) (ws1 ws2 zs sgn : List Char),
        minimum ≤ n → n ≤ maximum →
        (∀ c ∈ ws1, isPySpace c = true) → (∀ c ∈ ws2, isPySpace c = true) →
        (∀ c ∈ zs, c = '0') → SignOk sgn n →
        clean_integer (some (ws1 ++ (sgn ++ (zs ++ natToChars n.natAbs)) ++ ws2))
            minimum maximum = intToChars n)
    ∧ clean_integer none minimum maximum = MISSING_VALUE
    ∧ (∀ s, pyIntOfChars s = none →
        clean_integer (some s) minimum maximum = MISSING_VALUE)
    ∧ (∀ s (m : Int), pyIntOfChars s = some m → ¬ (minimum ≤ m ∧ m ≤ maximum) →
        clean_integer (some s) minimum maximum = MISSING_VALUE) := by
  refine ⟨?_, rfl, fun s h => clean_integer_some_fail s _ _ h, ?_⟩
  · intro n ws1 ws2 zs sgn hmin hmax h1 h2 hz hs
    rw [clean_integer_some_parse _ n _ _ (pyInt_of_form n sgn zs ws1 ws2 h1 h2 hz hs),
      if_pos ⟨hmin, hmax⟩]
  · intro s m hm hout
    rw [clean_integer_some_parse _ m _ _ hm, if_neg hout]

/-- Closed instances of `clean_integer_range_and_null` at concrete inputs:
`" 012 "` is a decorated form of 12, `None`, a non-numeric string and an
out-of-range value all yield the null marker. -/
theorem clean_integer_range_and_null_witness :
    clean_integer (some (" 012 ".data)) 1 12 = "12".data
    ∧ clean_integer none 1 12 = MISSING_VALUE
    ∧ clean_integer (some ("a13".data)) 1 12 = MISSING_VALUE
    ∧ clean_integer (some ("65536".data)) 1 12 = MISSING_VALUE := by
  obtain ⟨hform, hnone, hbad, hrange⟩ := clean_integer_range_and_null 1 12
  refine ⟨?_, hnone, hbad _ (by decide), hrange _ 65536 (by decide) (by decide)⟩
  exact hform 12 [' '] [' '] ['0'] [] (by decide) (by decide) (by decide) (by decide)
    (by decide) (Or.inl ⟨rfl, by decide⟩)

/-! ## Normalization (`clean_name`) lemmas -/

theorem flatMap_congr_id {α : Type} (f : α → List α) (l : List α)
    (h : ∀ c ∈ l, f c = [c]) : l.flatMap f = l := by
  induction l with
  | nil => rfl
  | cons c l ih =>
    rw [List.flatMap_cons, h c (List.mem_cons_self c l),
      ih (fun c hc => h c (List.mem_cons_of_mem _ hc))]
    rfl

theorem map_congr_id {α : Type} (f : α → α) (l : List α)
    (h : ∀ c ∈ l, f c = c) : l.map f = l := by
  induction l with
  | nil => rfl
  | cons c l ih =>
    rw [List.map_cons, h c (List.mem_cons_self c l),
      ih (fun c hc => h c (List.mem_cons_of_mem _ hc))]

theorem alphabet_chars_fixed :
    ∀ c ∈ ascii_lowercase ++ [' '], unidecodeChar c = [c] ∧ Char.toLower c = c := by
  decide

theorem clean_name_mem_acceptable (s : List Char) (remove_spaces : Bool) (c : Char)
    (hc : c ∈ clean_name s remove_spaces) : c ∈ ascii_lowercase ++ [' '] := by
  unfold clean_name at hc
  have hp := List.of_mem_filter hc
  have hmem := List.mem_of_elem_eq_true hp
  cases remove_spaces with
  | false => simpa using hmem
  | true => simp at hmem; simp [hmem]

/-- **C6.** The normalization function is idempotent: for every string
and either setting of the spaces flag,
`clean_name (clean_name s b) b = clean_name s b`.  After one pass the
string consists only of lowercase ascii letters (and possibly spaces),
which transliteration, lowercasing and filtering all leave unchanged. -/
theorem clean_name_idempotent (s : List Char) (remove_spaces : Bool) :
    clean_name (clean_name s remove_spaces) remove_spaces = clean_name s remove_spaces := by
  have hfix : ∀ c ∈ clean_name s remove_spaces, unidecodeChar c = [c] ∧ Char.toLower c = c :=
    fun c hc => alphabet_chars_fixed c (clean_name_mem_acceptable s remove_spaces c hc)
  have hkeep : ∀ c ∈ clean_name s remove_spaces,
      ((if remove_spaces then ascii_lowercase else ascii_lowercase ++ [' ']).contains c)
        = true := by
    intro c hc
    unfold clean_name at hc
    exact List.of_mem_filter hc
  have hexp : ∀ (raw : List Char) (b : Bool),
      clean_name raw b
        = ((raw.flatMap unidecodeChar).map Char.toLower).filter
            (fun c => (if b then ascii_lowercase else ascii_lowercase ++ [' ']).contains c) :=
    fun _ _ => rfl
  conv_lhs => rw [hexp]
  rw [flatMap_congr_id _ _ (fun c hc => (hfix c hc).1),
    map_congr_id _ _ (fun c hc => (hfix c hc).2),
    List.filter_eq_self.mpr hkeep]

/-! ## Pipeline row lemmas -/

theorem normalize_given (row : Row) :
    dlookup (normalize row) "given"
      = some (clean_name ((dlookup row "name_first_middle").getD [])) := by
  unfold normalize
  rw [dlookup_dinsert_ne _ _ _ _ (by decide), dlookup_dinsert_ne _ _ _ _ (by decide),
    dlookup_dinsert_ne _ _ _ _ (by decide), dlookup_dinsert_self]

theorem normalize_family (row : Row) :
    dlookup (normalize row) "family"
      = some (clean_name ((dlookup row "name_last").getD [])) := by
  unfold normalize
  rw [dlookup_dinsert_ne _ _ _ _ (by decide), dlookup_dinsert_ne _ _ _ _ (by decide),
    dlookup_dinsert_self]

theorem normalize_passthrough (row : Row) (k : String)
    (hk : INPUT_FIELDS.contains k = false)
    (hg : k ≠ "given") (hf : k ≠ "family") (hm : k ≠ "month") (hy : k ≠ "year") :
    dlookup (normalize row) k = dlookup row k := by
  unfold normalize
  rw [dlookup_dinsert_ne _ _ _ _ hy, dlookup_dinsert_ne _ _ _ _ hm,
    dlookup_dinsert_ne _ _ _ _ hf, dlookup_dinsert_ne _ _ _ _ hg,
    dlookup_filter_key_pos (fun x => !INPUT_FIELDS.contains x) _ _ (by simp only [hk]; rfl)]

theorem add_parsed_one_word_eq (r : Row) (g w : List Char)
    (hg : dlookup r "given" = some g) (hs : splitWords g = [w])
    (h2 : dlookup r "given_all_but_first" = none)
    (h4 : dlookup r "given_final_word" = none) :
    add_parsed_name_versions r
      = dinsert (dinsert r "given_first_word" w) "complete"
          (((dlookup (dinsert r "given_first_word" w) "given").getD [])
            ++ ((dlookup (dinsert r "given_first_word" w) "family").getD [])) := by
  have e1 : dlookup (dinsert r "given_first_word" w) "given_all_but_first" = none := by
    rw [dlookup_dinsert_ne _ _ _ _ (by decide)]; exact h2
  have e2 : dlookup (dinsert r "given_first_word" w) "given_final_word" = none := by
    rw [dlookup_dinsert_ne _ _ _ _ (by decide)]; exact h4
  unfold add_parsed_name_versions
  simp only [hg, Option.getD_some, hs, List.isEmpty_nil, if_true, e1, e2, Option.getD_none]

theorem add_parsed_no_word_eq (r : Row) (g : List Char)
    (hg : dlookup r "given" = some g) (hs : splitWords g = []) :
    add_parsed_name_versions r = dinsert r "complete" ((dlookup r "family").getD []) := by
  unfold add_parsed_name_versions
  simp only [hg, Option.getD_some, hs]

theorem process_row_lookup (row : Row) (nicknames : List (List Char × List Char)) (k : String) :
    dlookup (process_row row nicknames) k
      = (dlookup
            (dinsert (add_parsed_name_versions (normalize row)) "given_nickname"
              (dictGet nicknames
                (dictGet (add_parsed_name_versions (normalize row)) "given_first_word"
                  MISSING_VALUE)
                (dictGet (add_parsed_name_versions (normalize row)) "given_first_word"
                  MISSING_VALUE)))
            k).map
          (fun v => if OUTPUT_FIELDS.contains k then removeSpaces v else v) := by
  unfold process_row
  exact dlookup_mapval _ _ _ _

/-- **C7.** For every normalized given name consisting of exactly one
word, the emitted record has empty `given_final_word`,
`given_all_but_first` and `given_all_but_final` fields (they are never
set, and `csv.DictWriter`'s `restval` writes the empty string).  The
input row is assumed not to smuggle those three reserved fields in as
passthrough columns. -/
theorem one_word_given_blank_fields (row : Row)
    (nicknames : List (List Char × List Char)) (w : List Char)
    (hw : splitWords (clean_name ((dlookup row "name_first_middle").getD [])) = [w])
    (hfw : dlookup row "given_final_word" = none)
    (habf : dlookup row "given_all_but_first" = none)
    (habl : dlookup row "given_all_but_final" = none) :
    emitField (process_row row nicknames) "given_final_word" = MISSING_VALUE
    ∧ emitField (process_row row nicknames) "given_all_but_first" = MISSING_VALUE
    ∧ emitField (process_row row nicknames) "given_all_but_final" = MISSING_VALUE := by
  have a1 : dlookup (normalize row) "given_final_word" = none := by
    rw [normalize_passthrough row _ (by decide) (by decide) (by decide) (by decide) (by decide)]
    exact hfw
  have a2 : dlookup (normalize row) "given_all_but_first" = none := by
    rw [normalize_passthrough row _ (by decide) (by decide) (by decide) (by decide) (by decide)]
    exact habf
  have a3 : dlookup (normalize row) "given_all_but_final" = none := by
    rw [normalize_passthrough row _ (by decide) (by decide) (by decide) (by decide) (by decide)]
    exact habl
  have hap : add_parsed_name_versions (normalize row)
      = dinsert (dinsert (normalize row) "given_first_word" w) "complete"
          (((dlookup (dinsert (normalize row) "given_first_word" w) "given").getD [])
            ++ ((dlookup (dinsert (normalize row) "given_first_word" w) "family").getD [])) :=
    add_parsed_one_word_eq _ _ _ (normalize_given row) hw a2 a1
  have blank : ∀ k : String, k ≠ "complete" → k ≠ "given_first_word" →
      k ≠ "given_nickname" → dlookup (normalize row) k = none →
      emitField (process_row row nicknames) k = MISSING_VALUE := by
    intro k hkc hkf hkn hnone
    unfold emitField
    rw [process_row_lookup, dlookup_dinsert_ne _ _ _ _ hkn, hap,
      dlookup_dinsert_ne _ _ _ _ hkc, dlookup_dinsert_ne _ _ _ _ hkf, hnone]
    rfl
  exact ⟨blank _ (by decide) (by decide) (by decide) a1,
         blank _ (by decide) (by decide) (by decide) a2,
         blank _ (by decide) (by decide) (by decide) a3⟩

/-- Closed instance of `one_word_given_blank_fields` on a concrete row
with the one-word given name `"Ann"`. -/
theorem one_word_given_blank_fields_witness :
    emitField (process_row annRow []) "given_final_word" = MISSING_VALUE
    ∧ emitField (process_row annRow []) "given_all_but_first" = MISSING_VALUE
    ∧ emitField (process_row annRow []) "given_all_but_final" = MISSING_VALUE :=
  one_word_given_blank_fields annRow [] ("ann".data)
    (by decide) (by decide) (by decide) (by decide)

theorem splitRaw_ne_nil (s : List Char) : splitRaw s ≠ [] := by
  induction s with
  | nil => simp [splitRaw]
  | cons c s ih =>
    show (if isPySpace c then [] :: splitRaw s
          else match splitRaw s with
            | [] => [[c]]
            | w :: ws => (c :: w) :: ws) ≠ []
    by_cases h : isPySpace c
    · simp [h]
    · rw [if_neg (by simp [h])]
      cases hacc : splitRaw s with
      | nil => exact absurd hacc ih
      | cons w ws => simp

theorem splitWords_nil_all_space (s : List Char) (h : splitWords s = []) :
    ∀ c ∈ s, isPySpace c = true := by
  induction s with
  | nil => intro c hc; cases hc
  | cons c s ih =>
    have hsr : splitWords (c :: s)
        = (if isPySpace c then [] :: splitRaw s
           else match splitRaw s with
             | [] => [[c]]
             | w :: ws => (c :: w) :: ws).filter (fun w => !w.isEmpty) := rfl
    by_cases hc : isPySpace c
    · rw [hsr, if_pos hc, List.filter_cons] at h
      simp only [List.isEmpty_nil, Bool.not_true, if_false] at h
      intro d hd
      rcases List.mem_cons.mp hd with rfl | hd
      · exact hc
      · exact ih h d hd
    · rw [hsr, if_neg (by simp [hc])] at h
      cases hacc : splitRaw s with
      | nil => exact absurd hacc (splitRaw_ne_nil s)
      | cons w ws =>
        rw [hacc, List.filter_cons] at h
        simp at h

theorem ascii_not_space : ∀ d ∈ ascii_lowercase, isPySpace d = false := by decide

theorem removeSpaces_eq_nil_of_no_words (s : List Char) (remove_spaces : Bool)
    (h : splitWords (clean_name s remove_spaces) = []) :
    removeSpaces (clean_name s remove_spaces) = [] := by
  unfold removeSpaces
  rw [List.filter_eq_nil_iff]
  intro c hc
  have hsp := splitWords_nil_all_space _ h c hc
  have hmem := clean_name_mem_acceptable s remove_spaces c hc
  have hcs : c = ' ' := by
    rcases List.mem_append.mp hmem with hl | hl
    · simp [ascii_not_space c hl] at hsp
    · simpa using hl
  simp [hcs]

/-- **C8.** An input row whose given-name field normalizes to zero words
does not make the pipeline fail: `complete` is the normalized family name
alone, `given` and every decomposed given-name field come out empty, and
the nickname lookup on the empty first word falls back to the empty
string (assuming, as for the published artifact, that the empty string is
not a key of the nickname table).  The input row is assumed not to carry
reserved output fields as passthrough columns. -/
theorem empty_given_no_crash (row : Row) (nicknames : List (List Char × List Char))
    (hw : splitWords (clean_name ((dlookup row "name_first_middle").getD [])) = [])
    (hnick : dlookup nicknames MISSING_VALUE = none)
    (habs : ∀ f ∈ ["given_first_word", "given_final_word", "given_all_but_first",
        "given_all_but_final", "given_middle_initial", "given_final_initial"],
        dlookup row f = none) :
    emitField (process_row row nicknames) "complete"
        = removeSpaces (clean_name ((dlookup row "name_last").getD []))
    ∧ emitField (process_row row nicknames) "given" = MISSING_VALUE
    ∧ emitField (process_row row nicknames) "given_nickname" = MISSING_VALUE
    ∧ (∀ f ∈ ["given_first_word", "given_final_word", "given_all_but_first",
        "given_all_but_final", "given_middle_initial", "given_final_initial"],
        emitField (process_row row nicknames) f = MISSING_VALUE) := by
  have hap : add_parsed_name_versions (normalize row)
      = dinsert (normalize row) "complete" ((dlookup (normalize row) "family").getD []) :=
    add_parsed_no_word_eq _ _ (normalize_given row) hw
  have hblanknr : ∀ f ∈ ["given_first_word", "given_final_word", "given_all_but_first",
      "given_all_but_final", "given_middle_initial", "given_final_initial"],
      dlookup (normalize row) f = none := by
    intro f hf
    fin_cases hf <;>
      · rw [normalize_passthrough row _ (by decide) (by decide) (by decide) (by decide)
          (by decide)]
        exact habs _ (by decide)
  have hvf : dictGet (add_parsed_name_versions (normalize row)) "given_first_word"
      MISSING_VALUE = MISSING_VALUE := by
    unfold dictGet
    rw [hap, dlookup_dinsert_ne _ _ _ _ (by decide), hblanknr _ (by decide)]
    rfl
  have hnickval : dictGet nicknames MISSING_VALUE MISSING_VALUE = MISSING_VALUE := by
    unfold dictGet
    rw [hnick]
    rfl
  refine ⟨?_, ?_, ?_, ?_⟩
  · unfold emitField
    rw [process_row_lookup, dlookup_dinsert_ne _ _ _ _ (by decide), hap,
      dlookup_dinsert_self, normalize_family]
    simp only [Option.map_some', Option.getD_some]
    rw [if_pos (by decide)]
  · unfold emitField
    rw [process_row_lookup, dlookup_dinsert_ne _ _ _ _ (by decide), hap,
      dlookup_dinsert_ne _ _ _ _ (by decide), normalize_given]
    simp only [Option.map_some', Option.getD_some]
    rw [if_pos (by decide)]
    exact removeSpaces_eq_nil_of_no_words _ false hw
  · unfold emitField
    rw [process_row_lookup, hvf, hnickval, dlookup_dinsert_self]
    simp only [Option.map_some', Option.getD_some]
    rw [if_pos (by decide)]
    rfl
  · intro f hf
    have hne1 : f ≠ "given_nickname" := by fin_cases hf <;> decide
    have hne2 : f ≠ "complete" := by fin_cases hf <;> decide
    unfold emitField
    rw [process_row_lookup, dlookup_dinsert_ne _ _ _ _ hne1, hap,
      dlookup_dinsert_ne _ _ _ _ hne2, hblanknr f hf]
    rfl

/-- Closed instance of `empty_given_no_crash` on spec scenario 3
(`given=""`, `family="Lee"`): `complete` is `"lee"` and the empty-key
nickname lookup returns the empty string. -/
theorem empty_given_no_crash_witness :
    emitField (process_row leeRow []) "complete" = "lee".data
    ∧ emitField (process_row leeRow []) "given" = MISSING_VALUE
    ∧ emitField (process_row leeRow []) "given_nickname" = MISSING_VALUE
    ∧ emitField (process_row leeRow []) "given_first_word" = MISSING_VALUE := by
  obtain ⟨h1, h2, h3, h4⟩ :=
    empty_given_no_crash leeRow [] (by decide) (by decide) (by decide)
  exact ⟨by rw [h1]; decide, h2, h3, h4 _ (by decide)⟩

theorem add_parsed_preserves_other (r : Row) (k : String)
    (h1 : k ≠ "given_first_word") (h2 : k ≠ "given_final_word")
    (h3 : k ≠ "given_all_but_first") (h4 : k ≠ "given_all_but_final")
    (h5 : k ≠ "given_middle_initial") (h6 : k ≠ "given_final_initial")
    (h7 : k ≠ "complete") :
    dlookup (add_parsed_name_versions r) k = dlookup r k := by
  unfold add_parsed_name_versions
  cases hsw : splitWords ((dlookup r "given").getD []) with
  | nil => exact dlookup_dinsert_ne _ _ _ _ h7
  | cons w rest =>
    rw [dlookup_dinsert_ne _ _ _ _ h7]
    repeat' split
    all_goals
      repeat
        first
        | rw [dlookup_dinsert_ne _ _ _ _ h6]
        | rw [dlookup_dinsert_ne _ _ _ _ h5]
        | rw [dlookup_dinsert_ne _ _ _ _ h4]
        | rw [dlookup_dinsert_ne _ _ _ _ h3]
        | rw [dlookup_dinsert_ne _ _ _ _ h2]
        | rw [dlookup_dinsert_ne _ _ _ _ h1]

theorem space_not_mem_removeSpaces (v : List Char) : ' ' ∉ removeSpaces v := by
  intro hm
  unfold removeSpaces at hm
  have := (List.mem_filter.mp hm).2
  simp at this

theorem space_not_mem_strip_emit (o : Option (List Char)) (f : String)
    (hf : f ∈ OUTPUT_FIELDS) :
    ' ' ∉ (o.map (fun v => if OUTPUT_FIELDS.contains f then removeSpaces v else v)).getD
        MISSING_VALUE := by
  cases o with
  | none => simp [MISSING_VALUE]
  | some v =>
    simp only [Option.map_some', Option.getD_some]
    rw [if_pos (List.elem_eq_true_of_mem hf)]
    exact space_not_mem_removeSpaces v

/-- **C9, counterexample.** The claim fails as stated: `complete` is a
passthrough field of `collideRow` that is not in the reserved input-field
set, yet it is not carried through unmodified — the pipeline overwrites
it with the concatenation of the normalized given and family names. -/
theorem passthrough_collision_not_preserved :
    "complete" ∉ INPUT_FIELDS
    ∧ dlookup collideRow "complete" = some ("KEEP ME".data)
    ∧ dlookup (process_row collideRow []) "complete" ≠ some ("KEEP ME".data)
    ∧ emitField (process_row collideRow []) "complete" = "annbethlee".data := by
  refine ⟨by decide, by decide, by decide, by decide⟩

/-- **C9 (amended).** Every field of the fixed output schema in the
emitted row contains no space characters, and every passthrough field
whose name is neither a reserved input field *nor one of the fixed
output-schema field names* is carried through with its value unmodified. -/
theorem output_spaceless_and_nonreserved_passthrough (row : Row)
    (nicknames : List (List Char × List Char)) :
    (∀ f ∈ OUTPUT_FIELDS, ' ' ∉ emitField (process_row row nicknames) f)
    ∧ (∀ (k : String) (v : List Char), k ∉ INPUT_FIELDS → k ∉ OUTPUT_FIELDS →
        dlookup row k = some v → dlookup (process_row row nicknames) k = some v) := by
  constructor
  · intro f hf
    unfold emitField
    rw [process_row_lookup]
    exact space_not_mem_strip_emit _ f hf
  · intro k v hk1 hk2 hv
    have hne : ∀ f : String, f ∈ OUTPUT_FIELDS → k ≠ f := fun f hf he => hk2 (he ▸ hf)
    have hc : OUTPUT_FIELDS.contains k = false := by simpa using hk2
    rw [process_row_lookup, dlookup_dinsert_ne _ _ _ _ (hne _ (by decide)),
      add_parsed_preserves_other _ _ (hne _ (by decide)) (hne _ (by decide))
        (hne _ (by decide)) (hne _ (by decide)) (hne _ (by decide)) (hne _ (by decide))
        (hne _ (by decide)),
      normalize_passthrough row k (by simpa using hk1) (hne _ (by decide))
        (hne _ (by decide)) (hne _ (by decide)) (hne _ (by decide)), hv]
    simp only [Option.map_some', hc, Bool.false_eq_true, if_false]

/-- Closed instance of `output_spaceless_and_nonreserved_passthrough` on
`collideRow`: the schema field `given` is emitted without spaces even
though the cleaned given name is `"ann beth"`, and the non-colliding
passthrough field `employer` keeps its double space. -/
theorem output_spaceless_and_nonreserved_passthrough_witness :
    ' ' ∉ emitField (process_row collideRow []) "given"
    ∧ dlookup (process_row collideRow []) "employer" = some ("ACME  Corp".data) := by
  obtain ⟨h1, h2⟩ := output_spaceless_and_nonreserved_passthrough collideRow []
  exact ⟨h1 "given" (by decide), h2 "employer" _ (by decide) (by decide) (by decide)⟩

end NCSES

/-! ## Table-builder lemmas -/

namespace AENC

theorem mem_loopsOf {df : List NickRow} {x y : NickRow} :
    (x, y) ∈ loopsOf df
      ↔ x ∈ df ∧ y ∈ df ∧ x.raw_name = y.name_group ∧ x.name_group = y.raw_name := by
  constructor
  · intro h
    simp only [loopsOf, List.mem_flatMap, List.mem_map, List.mem_filter,
      Bool.and_eq_true, beq_iff_eq] at h
    obtain ⟨a, ha, b, ⟨hb, hab1, hab2⟩, heq⟩ := h
    cases heq
    exact ⟨ha, hb, hab1, hab2⟩
  · rintro ⟨hx, hy, h1, h2⟩
    simp only [loopsOf, List.mem_flatMap, List.mem_map, List.mem_filter,
      Bool.and_eq_true, beq_iff_eq]
    exact ⟨x, hx, y, ⟨hy, h1, h2⟩, rfl⟩

theorem mem_chainsOf {df : List NickRow} {x y : NickRow} :
    (x, y) ∈ chainsOf df ↔ x ∈ df ∧ y ∈ df ∧ x.name_group = y.raw_name := by
  constructor
  · intro h
    simp only [chainsOf, List.mem_flatMap, List.mem_map, List.mem_filter, beq_iff_eq] at h
    obtain ⟨a, ha, b, ⟨hb, hab⟩, heq⟩ := h
    cases heq
    exact ⟨ha, hb, hab⟩
  · rintro ⟨hx, hy, h1⟩
    simp only [chainsOf, List.mem_flatMap, List.mem_map, List.mem_filter, beq_iff_eq]
    exact ⟨x, hx, y, ⟨hy, h1⟩, rfl⟩

theorem mem_loop_resolver {df : List NickRow} {e : List Char × List Char} :
    e ∈ loop_resolver df
      ↔ ∃ p ∈ loopsOf df, p.1.group_n ≤ p.2.group_n
          ∧ e = (p.2.raw_name, p.2.name_group) := by
  simp only [loop_resolver, loop_priority, List.mem_map, List.mem_filter, decide_eq_true_eq]
  constructor
  · rintro ⟨p, ⟨hp, hle⟩, rfl⟩
    exact ⟨p, hp, hle, rfl⟩
  · rintro ⟨p, hp, hle, rfl⟩
    exact ⟨p, ⟨hp, hle⟩, rfl⟩

theorem dictLookup_eq_none {d : List (List Char × List Char)} {k : List Char}
    (h : ∀ e ∈ d, e.1 ≠ k) : dictLookup d k = none := by
  unfold dictLookup
  rw [List.find?_eq_none.mpr]
  · rfl
  · intro e he
    simpa using h e (List.mem_reverse.mp he)

theorem dictLookup_mem {d : List (List Char × List Char)} {k v : List Char}
    (h : dictLookup d k = some v) : (k, v) ∈ d := by
  unfold dictLookup at h
  cases hf : d.reverse.find? (fun e => e.1 == k) with
  | none => rw [hf] at h; cases h
  | some e =>
    rw [hf] at h
    have he1 : e.1 = k := by simpa using List.find?_some hf
    have he2 : e ∈ d := List.mem_reverse.mp (List.mem_of_find?_eq_some hf)
    have he3 : e.2 = v := by simpa using h
    rw [← he1, ← he3]
    exact he2

theorem dictLookup_isSome_of_mem {d : List (List Char × List Char)} {k v : List Char}
    (hm : (k, v) ∈ d) : ∃ w, dictLookup d k = some w := by
  cases hf : d.reverse.find? (fun e => e.1 == k) with
  | some e => exact ⟨e.2, by simp [dictLookup, hf]⟩
  | none =>
    have := List.find?_eq_none.mp hf (k, v) (List.mem_reverse.mpr hm)
    simp at this

/-- **C2.** In the loop-resolution stage, for every two-node loop
(`x : A → B` and `y : B → A` with `A ≠ B`) in a table with one row per
`raw_name`, if the target group of `x` has strictly larger support than
the target group of `y` then the resolved table still contains `x`
unchanged and contains no row `B → A`: the reverse edge has been
redirected (to `B → B`, which the following stage drops). -/
theorem loop_resolution_keeps_higher_support (df : List NickRow) (x y : NickRow)
    (hfun : ∀ a ∈ df, ∀ b ∈ df, a.raw_name = b.raw_name → a = b)
    (hx : x ∈ df) (hy : y ∈ df)
    (hxy : x.name_group = y.raw_name) (hyx : y.name_group = x.raw_name)
    (hne : x.raw_name ≠ y.raw_name)
    (hsupp : y.group_n < x.group_n) :
    x ∈ resolveLoops df
    ∧ ∀ r ∈ resolveLoops df,
        ¬ (r.raw_name = y.raw_name ∧ r.name_group = y.name_group) := by
  have K1 : ∀ e ∈ loop_resolver df, e.1 ≠ x.name_group := by
    intro e he h1
    obtain ⟨p, hp, hle, rfl⟩ := mem_loop_resolver.mp he
    obtain ⟨hu, hv, huv1, huv2⟩ := mem_loopsOf.mp (show (p.1, p.2) ∈ loopsOf df from hp)
    have h1' : p.2.raw_name = x.name_group := h1
    have hvy : p.2 = y := hfun _ hv _ hy (h1'.trans hxy)
    have hux : p.1 = x := hfun _ hu _ hx (by rw [huv1, hvy, hyx])
    rw [hvy, hux] at hle
    omega
  have K2 : ∀ e ∈ loop_resolver df, e.1 = x.raw_name → e.2 = x.name_group := by
    intro e he h1
    obtain ⟨p, hp, hle, rfl⟩ := mem_loop_resolver.mp he
    obtain ⟨hu, hv, huv1, huv2⟩ := mem_loopsOf.mp (show (p.1, p.2) ∈ loopsOf df from hp)
    have h1' : p.2.raw_name = x.raw_name := h1
    have hvx : p.2 = x := hfun _ hv _ hx h1'
    show p.2.name_group = x.name_group
    rw [hvx]
  have K3 : (x.raw_name, x.name_group) ∈ loop_resolver df := by
    refine mem_loop_resolver.mpr ⟨(y, x), mem_loopsOf.mpr ⟨hy, hx, hxy.symm, hyx⟩, ?_, rfl⟩
    exact le_of_lt hsupp
  constructor
  · refine List.mem_map.mpr ⟨x, hx, ?_⟩
    rw [dictLookup_eq_none K1]
    rfl
  · rintro r hr ⟨hr1, hr2⟩
    obtain ⟨s, hs, rfl⟩ := List.mem_map.mp hr
    have hsy : s = y := hfun _ hs _ hy hr1
    have hkey : s.name_group = x.raw_name := by rw [hsy]; exact hyx
    obtain ⟨w, hw⟩ := dictLookup_isSome_of_mem
      (show (s.name_group, x.name_group) ∈ loop_resolver df by rw [hkey]; exact K3)
    have hwv : w = x.name_group := K2 _ (dictLookup_mem hw) hkey
    have hr2' : (dictLookup (loop_resolver df) s.name_group).getD s.name_group
        = y.name_group := hr2
    rw [hw, Option.getD_some, hwv] at hr2'
    exact hne ((hyx.symm.trans hr2'.symm).trans hxy)

/-- Closed instance of `loop_resolution_keeps_higher_support` on the
worked example: `CHRIS → CHRISTOPHER` (support 20) survives loop
resolution and `CHRISTOPHER → CHRIS` (support 3) does not. -/
theorem loop_resolution_keeps_higher_support_witness :
    mkNick "chris" "christopher" 900 20 ∈ resolveLoops chrisDf
    ∧ mkNick "christopher" "chris" 200 3 ∉ resolveLoops chrisDf := by
  obtain ⟨h1, h2⟩ := loop_resolution_keeps_higher_support chrisDf
    (mkNick "chris" "christopher" 900 20) (mkNick "christopher" "chris" 200 3)
    (by decide) (by decide) (by decide) (by decide) (by decide) (by decide) (by decide)
  exact ⟨h1, fun hm => h2 _ hm ⟨rfl, rfl⟩⟩

/-- **C3, counterexample.** The claim that self-mappings are dropped
*after* chain collapse fails on the code: the In[9] cell removes
self-mappings first and then collapses chains, so when collapse creates
self-mappings (as on `fourCycleDf`, where ten passes turn the four-cycle
into four self-loops) they survive the stage. -/
theorem self_rows_survive_collapse_stage :
    mkNick "aaa" "aaa" 900 5 ∈ collapseStage fourCycleDf
    ∧ (mkNick "aaa" "aaa" 900 5).raw_name = (mkNick "aaa" "aaa" 900 5).name_group := by
  exact ⟨by decide, by decide⟩

/-- **C3 (amended).** The self-mapping-removal stage runs *before* the
chain-collapse stage (it drops the self-mappings produced by loop
resolution); a row that still maps to itself after the collapse stage is
not dropped but makes the sanity checks fail, so no artifact is
published. -/
theorem self_removal_before_collapse (df : List NickRow) (r : NickRow)
    (h1 : r ∈ collapseStage df) (h2 : r.raw_name = r.name_group) :
    collapseStage df = collapseChains 10 (removeSelfMaps df)
    ∧ (sanityChecksAndPublish (collapseStage df)).isOk = false := by
  refine ⟨rfl, ?_⟩
  have hchain : (r, r) ∈ chainsOf (collapseStage df) :=
    mem_chainsOf.mpr ⟨h1, h1, h2.symm⟩
  have hne : (chainsOf (collapseStage df)).isEmpty = false := by
    cases hc : chainsOf (collapseStage df) with
    | nil => rw [hc] at hchain; cases hchain
    | cons a l => rfl
  unfold sanityChecksAndPublish
  split
  · rfl
  · split
    · rfl
    · split
      · rfl
      · split
        · rfl
        · split
          · rfl
          · rw [if_pos (by rw [hne]; rfl)]
            rfl

/-- Closed instance of `self_removal_before_collapse` on `fourCycleDf`. -/
theorem self_removal_before_collapse_witness :
    collapseStage fourCycleDf = collapseChains 10 (removeSelfMaps fourCycleDf)
    ∧ (sanityChecksAndPublish (collapseStage fourCycleDf)).isOk = false :=
  self_removal_before_collapse fourCycleDf (mkNick "aaa" "aaa" 900 5)
    (by decide) (by decide)

/-- **C4.** If the chain collapse has not converged within its ten-pass
cap — some row's `name_group` is still used as a `raw_name` after the
capped passes — then the sanity-check stage fails one of its asserts
(halting the build with the violated check named) and no lookup artifact
is produced. -/
theorem unconverged_collapse_fails_build (df : List NickRow)
    (h : chainsOf (collapseStage df) ≠ []) :
    (∃ msg, sanityChecksAndPublish (collapseStage df) = Except.error msg)
    ∧ (sanityChecksAndPublish (collapseStage df)).isOk = false := by
  have hne : (chainsOf (collapseStage df)).isEmpty = false := by
    cases hc : chainsOf (collapseStage df) with
    | nil => exact absurd hc h
    | cons a l => rfl
  have hok : (sanityChecksAndPublish (collapseStage df)).isOk = false := by
    unfold sanityChecksAndPublish
    split
    · rfl
    · split
      · rfl
      · split
        · rfl
        · split
          · rfl
          · split
            · rfl
            · rw [if_pos (by rw [hne]; rfl)]
              rfl
  refine ⟨?_, hok⟩
  cases hx : sanityChecksAndPublish (collapseStage df) with
  | error msg => exact ⟨msg, rfl⟩
  | ok t => rw [hx] at hok; cases hok

/-- Closed instance of `unconverged_collapse_fails_build`: on
`fourCycleDf` the ten passes leave four self-chains, so the build fails
(with the chain invariant named) and publishes nothing. -/
theorem unconverged_collapse_fails_build_witness :
    sanityChecksAndPublish (collapseStage fourCycleDf) = Except.error "chains remain"
    ∧ (sanityChecksAndPublish (collapseStage fourCycleDf)).isOk = false :=
  ⟨by rfl, (unconverged_collapse_fails_build fourCycleDf (by decide)).2⟩

theorem mem_insertLe {α : Type} (le : α → α → Bool) (a x : α) (l : List α) :
    x ∈ insertLe le a l ↔ x = a ∨ x ∈ l := by
  induction l with
  | nil => simp [insertLe]
  | cons b l ih =>
    unfold insertLe
    split
    · simp
    · rw [List.mem_cons, ih, List.mem_cons]
      tauto

theorem mem_sortLe {α : Type} (le : α → α → Bool) (x : α) (l : List α) :
    x ∈ sortLe le l ↔ x ∈ l := by
  induction l with
  | nil => simp [sortLe]
  | cons a l ih =>
    unfold sortLe at *
    rw [List.foldr_cons, mem_insertLe, ih, List.mem_cons]

theorem sanity_ok_inv (df : List NickRow) (t : List (List Char × List Char))
    (h : sanityChecksAndPublish df = Except.ok t) :
    (chainsOf df).isEmpty = true ∧ t = finalPairs df := by
  unfold sanityChecksAndPublish at h
  split at h
  · cases h
  · split at h
    · cases h
    · split at h
      · cases h
      · split at h
        · cases h
        · split at h
          · cases h
          · split at h
            · cases h
            · split at h
              · cases h
              · next hch _ =>
                cases h
                exact ⟨by simpa using hch, rfl⟩

/-- **C1, counterexample.** The claim fails as stated: the sanity checks
compare names case-sensitively *before* the final lowercasing, so the
mixed-case corpus `corpusMixedCase` passes every assert and publishes an
artifact in which the name_group value `"ppp"` (of `("j", "ppp")`) is
also a raw_name key (row `("ppp", "mmm")`) — a chain in the published
lookup table. -/
theorem mixed_case_corpus_breaks_invariant :
    buildLookup corpusMixedCase = Except.ok mixedCaseTable
    ∧ ("j".data, "ppp".data) ∈ mixedCaseTable
    ∧ ("ppp".data, "mmm".data) ∈ mixedCaseTable
    ∧ ¬ (NoChainedKeys mixedCaseTable ∧ NoTwoCycles mixedCaseTable) := by
  refine ⟨by rfl, by decide, by decide, ?_⟩
  rintro ⟨hno, -⟩
  exact hno ("j".data, "ppp".data) (by decide) ("ppp".data, "mmm".data) (by decide) rfl

/-- **C1 (amended).** For a corpus on which the builder publishes an
artifact *and* whose checked table is already case-normalized (every name
unchanged by lowercasing — true in particular when the corpus itself is
lowercase, and the sense in which the real all-uppercase AENC corpus is
safe), the published (raw_name, name_group) pairs have no chained keys
(no name_group is also a raw_name) and no two-cycles. -/
theorem published_table_acyclic_of_lower (corpus : List RawRow)
    (t : List (List Char × List Char))
    (hok : buildLookup corpus = Except.ok t)
    (hlow : ∀ r ∈ collapseStage (resolveLoops (bestLinks (dropImprobable (dropRareGroups
        (withGroupN (dropShortGroups (dropMultiWordNames (intake corpus)))))))),
        lowerName r.raw_name = r.raw_name ∧ lowerName r.name_group = r.name_group) :
    NoChainedKeys t ∧ NoTwoCycles t := by
  set df := collapseStage (resolveLoops (bestLinks (dropImprobable (dropRareGroups
    (withGroupN (dropShortGroups (dropMultiWordNames (intake corpus)))))))) with hdf
  obtain ⟨hch, rfl⟩ := sanity_ok_inv df t hok
  have hchnil : chainsOf df = [] := by
    cases hc : chainsOf df with
    | nil => rfl
    | cons a l => rw [hc] at hch; simp at hch
  have hnochain : ∀ a ∈ df, ∀ b ∈ df, a.name_group ≠ b.raw_name := by
    intro a ha b hb hab
    have hm : (a, b) ∈ chainsOf df := mem_chainsOf.mpr ⟨ha, hb, hab⟩
    rw [hchnil] at hm
    cases hm
  have hmem : ∀ p, p ∈ finalPairs df ↔ ∃ r ∈ df, p = (r.raw_name, r.name_group) := by
    intro p
    unfold finalPairs
    rw [mem_sortLe]
    simp only [List.mem_map]
    constructor
    · rintro ⟨r, hr, rfl⟩
      obtain ⟨e1, e2⟩ := hlow r hr
      exact ⟨r, hr, by rw [e1, e2]⟩
    · rintro ⟨r, hr, rfl⟩
      obtain ⟨e1, e2⟩ := hlow r hr
      exact ⟨r, hr, by rw [e1, e2]⟩
  constructor
  · intro p hp q hq
    obtain ⟨a, ha, rfl⟩ := (hmem p).mp hp
    obtain ⟨b, hb, rfl⟩ := (hmem q).mp hq
    exact fun hqp => hnochain a ha b hb hqp.symm
  · intro p hp hswap
    obtain ⟨a, ha, rfl⟩ := (hmem p).mp hp
    obtain ⟨b, hb, hba⟩ := (hmem _).mp hswap
    have hfst : a.name_group = b.raw_name := congrArg Prod.fst hba
    exact hnochain a ha b hb hfst

/-- Closed instance of `published_table_acyclic_of_lower` on the
case-normalized corpus `corpusLowerCase` and its published artifact. -/
theorem published_table_acyclic_of_lower_witness :
    NoChainedKeys lowerCaseTable ∧ NoTwoCycles lowerCaseTable :=
  published_table_acyclic_of_lower corpusLowerCase lowerCaseTable (by rfl) (by decide)

end AENC
